import Mathlib

/-!
Shallow embedding of the `fondue` in-process caching library
(`src/cache.rs`, `src/context.rs`, `src/stats.rs`).

Modelling conventions:
* `std::time::Instant` is modelled by a `Nat` timestamp; each engine call
  receives the current time `now : Nat` explicitly (standing for the
  `Instant::now()` calls made inside the Rust function), and
  `instant.elapsed() >= ttl` becomes `ttl ≤ now - instant` with truncated
  subtraction.  `Duration` is a `Nat`.
* The concurrent `DashMap` is modelled, for single-threaded call sequences,
  by an association list with unique keys (`alookup` / `ainsert` / `aremove`).
* The address-derived stats name `format!("Cache@{:p}", self)` is modelled by
  a `name` field fixed at construction.
* Every operation returns, besides its result and the new cache state, the
  list of snapshots it published to the stats collector (the
  `update_cache_stats` calls, in order); `Cache.get` also returns how many
  times it invoked the caller's `compute` closure.
* `hit_rate`'s `f64` division is modelled over `ℚ`; the claims treated here
  only concern the exact guarded branch.
-/

namespace Fondue

/-- TTL (time-to-live) types for cache entries (`TtlType` in `cache.rs`). -/
inductive TtlType where
  | Fixed
  | Sliding
deriving DecidableEq, Repr

/-- Eviction policies supported by the cache (`EvictionPolicy` in `cache.rs`).
`Ttl`/`LruTtl` durations are in abstract time units. -/
inductive EvictionPolicy where
  | None
  | Lru (limit : Nat)
  | Ttl (duration : Nat) (ttl_type : TtlType)
  | LruTtl (limit : Nat) (duration : Nat) (ttl_type : TtlType)
deriving DecidableEq, Repr

/-- A cached entry with timing and access metadata (`CacheEntry` in `cache.rs`). -/
structure CacheEntry (V : Type) where
  value : V
  created_at : Nat
  last_accessed : Nat
  access_count : Nat
  ttl : Option Nat
  ttl_type : Option TtlType
deriving DecidableEq, Repr

/-- `CacheEntry::new`: both timestamps set to the current time, zero accesses. -/
def CacheEntry.new (value : V) (ttl : Option Nat) (ttl_type : Option TtlType)
    (now : Nat) : CacheEntry V :=
  { value := value, created_at := now, last_accessed := now, access_count := 0,
    ttl := ttl, ttl_type := ttl_type }

/-- `CacheEntry::is_expired`: Sliding measures from `last_accessed`, Fixed from
`created_at`; entries without full ttl metadata never expire. -/
def CacheEntry.is_expired (e : CacheEntry V) (now : Nat) : Bool :=
  match e.ttl, e.ttl_type with
  | some ttl, some tt =>
      match tt with
      | .Sliding => decide (ttl ≤ now - e.last_accessed)
      | .Fixed => decide (ttl ≤ now - e.created_at)
  | _, _ => false

/-- `CacheEntry::touch`: bump the access count, refresh `last_accessed`. -/
def CacheEntry.touch (e : CacheEntry V) (now : Nat) : CacheEntry V :=
  { e with access_count := e.access_count + 1, last_accessed := now }

/-- Association-list lookup, modelling `DashMap::get`. -/
def alookup [DecidableEq K] : List (K × V) → K → Option V
  | [], _ => none
  | p :: s, k => if p.1 = k then some p.2 else alookup s k

/-- Association-list insert-or-replace, modelling `DashMap::insert`
(and in-place mutation through `get_mut`). -/
def ainsert [DecidableEq K] : List (K × V) → K → V → List (K × V)
  | [], k, v => [(k, v)]
  | p :: s, k, v => if p.1 = k then (k, v) :: s else p :: ainsert s k v

/-- Association-list removal, modelling `DashMap::remove`. -/
def aremove [DecidableEq K] : List (K × V) → K → List (K × V)
  | [], _ => []
  | p :: s, k => if p.1 = k then aremove s k else p :: aremove s k

/-- The keys of an association list. -/
def akeys (s : List (K × V)) : List K := s.map Prod.fst

/-- A stats snapshot (`CacheStats` in `stats.rs`); `hit_rate` over `ℚ`. -/
structure CacheStats where
  name : String
  hits : Nat
  misses : Nat
  entries : Nat
  hit_rate : Rat
deriving DecidableEq, Repr

/-- `GlobalStats.register` / `register_stats`: store the snapshot under the
name, overwriting any prior snapshot held there (`HashMap::insert`). -/
def registerStats (m : List (String × CacheStats)) (name : String)
    (stats : CacheStats) : List (String × CacheStats) :=
  ainsert m name stats

/-- The cache engine (`Cache` in `cache.rs`): storage, fixed policy, hit and
miss counters.  `name` models the address-derived stats name. -/
structure Cache (K V : Type) where
  storage : List (K × CacheEntry V)
  policy : EvictionPolicy
  hits : Nat
  misses : Nat
  name : String
deriving DecidableEq, Repr

/-- `Cache::with_policy`: empty storage, zeroed counters. -/
def Cache.with_policy (policy : EvictionPolicy) (name : String) : Cache K V :=
  { storage := [], policy := policy, hits := 0, misses := 0, name := name }

/-- `Cache::len`. -/
def Cache.len (c : Cache K V) : Nat := c.storage.length

/-- `Cache::hit_rate`: 0 when there have been no requests, else hits / total. -/
def Cache.hit_rate (c : Cache K V) : Rat :=
  let hits := c.hits
  let total := c.hits + c.misses
  if total = 0 then 0 else (hits : Rat) / (total : Rat)

/-- The snapshot `update_cache_stats` builds and publishes. -/
def Cache.current_stats (c : Cache K V) : CacheStats :=
  { name := c.name, hits := c.hits, misses := c.misses, entries := c.len,
    hit_rate := c.hit_rate }

/-- The ttl duration the policy stamps on new entries (the `match` shared by
`Cache::get` and `Cache::insert`). -/
def policyTtl : EvictionPolicy → Option Nat
  | .Ttl d _ => some d
  | .LruTtl _ d _ => some d
  | _ => none

/-- The ttl kind the policy stamps on new entries. -/
def policyTtlType : EvictionPolicy → Option TtlType
  | .Ttl _ t => some t
  | .LruTtl _ _ t => some t
  | _ => none

/-- The comparator of `Cache::evict_lru`: `last_accessed` ascending,
tie-broken by `created_at` ascending. -/
def entryLe (a b : K × CacheEntry V) : Bool :=
  decide (a.2.last_accessed < b.2.last_accessed ∨
    (a.2.last_accessed = b.2.last_accessed ∧ a.2.created_at ≤ b.2.created_at))

/-- `Cache::evict_lru`: stable-sort the entries by `entryLe` and remove the
first `count` keys. -/
def Cache.evict_lru [DecidableEq K] (c : Cache K V) (count : Nat) : Cache K V :=
  let sorted := c.storage.mergeSort entryLe
  { c with storage := ((sorted.take count).map Prod.fst).foldl aremove c.storage }

/-- `Cache::maybe_evict`: expiry sweep, then capacity sweep for
capacity-bearing policies. -/
def Cache.maybe_evict [DecidableEq K] (c : Cache K V) (now : Nat) : Cache K V :=
  let swept := { c with
    storage := c.storage.filter (fun p => !(p.2.is_expired now)) }
  match c.policy with
  | .Lru limit | .LruTtl limit _ _ =>
      if swept.storage.length > limit then
        swept.evict_lru (swept.storage.length - limit)
      else swept
  | _ => swept

/-- The miss path of `Cache::get`: count a miss, invoke `compute`, store the
result stamped with the policy's ttl metadata, run eviction maintenance,
publish a snapshot.  `evs` carries snapshots already published by the caller;
the final `Nat` is the number of `compute` invocations. -/
def Cache.missPath [DecidableEq K] (c : Cache K V) (k : K) (compute : V)
    (now : Nat) (evs : List CacheStats) :
    V × Cache K V × List CacheStats × Nat :=
  let c1 := { c with misses := c.misses + 1 }
  let value := compute
  let entry := CacheEntry.new value (policyTtl c1.policy) (policyTtlType c1.policy) now
  let c2 := { c1 with storage := ainsert c1.storage k entry }
  let c3 := c2.maybe_evict now
  (value, c3, evs ++ [c3.current_stats], 1)

/-- `Cache::get` (get-or-compute).  Hit: touch, count a hit, publish, return a
copy of the stored value.  Expired: remove, publish, fall through to the miss
path.  Absent: miss path. -/
def Cache.get [DecidableEq K] (c : Cache K V) (k : K) (compute : V)
    (now : Nat) : V × Cache K V × List CacheStats × Nat :=
  match alookup c.storage k with
  | some entry =>
      if entry.is_expired now then
        let c1 := { c with storage := aremove c.storage k }
        c1.missPath k compute now [c1.current_stats]
      else
        let touched := entry.touch now
        let c1 := { c with storage := ainsert c.storage k touched,
                           hits := c.hits + 1 }
        (touched.value, c1, [c1.current_stats], 0)
  | none => c.missPath k compute now []

/-- `Cache::get_if_cached` (try-get): never invokes a compute closure; hit
touches and counts; expiry removes; absence leaves everything unchanged and
publishes nothing. -/
def Cache.get_if_cached [DecidableEq K] (c : Cache K V) (k : K) (now : Nat) :
    Option V × Cache K V × List CacheStats :=
  match alookup c.storage k with
  | some entry =>
      if entry.is_expired now then
        let c1 := { c with storage := aremove c.storage k }
        (none, c1, [c1.current_stats])
      else
        let touched := entry.touch now
        let c1 := { c with storage := ainsert c.storage k touched,
                           hits := c.hits + 1 }
        (some touched.value, c1, [c1.current_stats])
  | none => (none, c, [])

/-- `Cache::insert`: unconditional overwrite with fresh metadata, then
eviction maintenance, then publish. -/
def Cache.insert [DecidableEq K] (c : Cache K V) (k : K) (v : V) (now : Nat) :
    Cache K V × List CacheStats :=
  let entry := CacheEntry.new v (policyTtl c.policy) (policyTtlType c.policy) now
  let c1 := { c with storage := ainsert c.storage k entry }
  let c2 := c1.maybe_evict now
  (c2, [c2.current_stats])

/-- `Cache::invalidate`: remove if present (publishing a snapshot only in that
case) and report whether a removal happened. -/
def Cache.invalidate [DecidableEq K] (c : Cache K V) (k : K) :
    Bool × Cache K V × List CacheStats :=
  match alookup c.storage k with
  | some _ =>
      let c1 := { c with storage := aremove c.storage k }
      (true, c1, [c1.current_stats])
  | none => (false, c, [])

/-- `Cache::clear`: drop every entry, publish. -/
def Cache.clear (c : Cache K V) : Cache K V × List CacheStats :=
  let c1 := { c with storage := ([] : List (K × CacheEntry V)) }
  (c1, [c1.current_stats])

/-- The capacity carried by a capacity-bearing policy. -/
def capacityOf : EvictionPolicy → Option Nat
  | .Lru limit => some limit
  | .LruTtl limit _ _ => some limit
  | _ => none

/-- A sequence of `touch` mutations at the given times (the accumulated
effect of successive hits on one entry). -/
def touchSeq (e : CacheEntry V) (ts : List Nat) : CacheEntry V :=
  ts.foldl CacheEntry.touch e

/-- `gapsLt d prev ts`: the read times `ts` are monotone starting from
`prev` and consecutive gaps are strictly below `d`. -/
def gapsLt (d : Nat) : Nat → List Nat → Bool
  | _, [] => true
  | prev, t :: ts => decide (prev ≤ t) && decide (t - prev < d) && gapsLt d t ts

/-- A sequence of `get_if_cached` reads of one key at the given times,
keeping only the evolving cache state. -/
def readSeq [DecidableEq K] (c : Cache K V) (k : K) (ts : List Nat) :
    Cache K V :=
  ts.foldl (fun c t => (c.get_if_cached k t).2.1) c

/-- Post-maintenance contract relative to the pre-maintenance table `s0`:
size bounded by `cap`; exactly `cap` when the expiry-swept table exceeded it;
survivors are unmodified swept entries; every evicted swept entry precedes
every survivor in the `(last_accessed, created_at)` eviction order. -/
def evictedSpec [DecidableEq K] (s0 : List (K × CacheEntry V))
    (now cap : Nat) (c' : Cache K V) : Prop :=
  c'.storage.length ≤ cap ∧
  ((s0.filter (fun p => !(p.2.is_expired now))).length > cap →
    c'.storage.length = cap) ∧
  (∀ q ∈ c'.storage, q ∈ s0.filter (fun p => !(p.2.is_expired now))) ∧
  (∀ p ∈ s0.filter (fun p => !(p.2.is_expired now)),
    p.1 ∉ akeys c'.storage → ∀ q ∈ c'.storage, entryLe p q = true)

/-! ### Global registry layer (`cache.rs`, bottom half) -/

/-- The registry key's rendering of a `Duration` (`{:?}` on millisecond
durations prints as `<n>ms`). -/
def durationRepr (d : Nat) : String := toString d ++ "ms"

/-- The registry key's rendering of a ttl kind (`{:?}` on `TtlType`). -/
def ttlTypeRepr : TtlType → String
  | .Fixed => "Fixed"
  | .Sliding => "Sliding"

/-- The `policy_key` string built inside `get_or_create_cache`. -/
def policy_key : EvictionPolicy → String
  | .None => "none"
  | .Lru limit => "lru(" ++ toString limit ++ ")"
  | .Ttl duration ttl_type =>
      "ttl(" ++ durationRepr duration ++ "," ++ ttlTypeRepr ttl_type ++ ")"
  | .LruTtl limit duration ttl_type =>
      "lru_ttl(" ++ toString limit ++ ", " ++ durationRepr duration ++ ","
        ++ ttlTypeRepr ttl_type ++ ")"

/-- The composite registry key `format!("{}::{}", namespace, policy_key)`. -/
def cache_key (ns : String) (policy : EvictionPolicy) : String :=
  ns ++ "::" ++ policy_key policy

/-- `str::starts_with` on the underlying character sequences. -/
def strStartsWith (s pre : String) : Bool :=
  List.isPrefixOf pre.data s.data

/-- `get_or_create_cache`: look up the composite key in the global registry,
creating and memoizing a fresh cache when absent (`entry().or_insert_with`). -/
def get_or_create_cache (caches : List (String × Cache String String))
    (ns : String) (policy : EvictionPolicy) :
    Cache String String × List (String × Cache String String) :=
  match alookup caches (cache_key ns policy) with
  | some c => (c, caches)
  | none =>
      let c := Cache.with_policy policy (cache_key ns policy)
      (c, ainsert caches (cache_key ns policy) c)

/-- `cache_invalidate`: invalidate `key` in every registry cache whose
composite key starts with `ns`; report whether any removal happened. -/
def cache_invalidate (caches : List (String × Cache String String))
    (ns key : String) : Bool × List (String × Cache String String) :=
  (caches.any (fun p => strStartsWith p.1 ns && (p.2.invalidate key).1),
   caches.map (fun p =>
     if strStartsWith p.1 ns then (p.1, (p.2.invalidate key).2.1) else p))

/-- `cache_clear_namespace`: clear every registry cache whose composite key
starts with `ns`. -/
def cache_clear_namespace (caches : List (String × Cache String String))
    (ns : String) : List (String × Cache String String) :=
  caches.map (fun p =>
    if strStartsWith p.1 ns then (p.1, (p.2.clear).1) else p)

/-! ### Context layer (`context.rs`) -/

/-- A named cache context grouping per-key sub-caches (`CacheContext`). -/
structure CacheContext where
  name : String
  caches : List (String × Cache String String)

/-- `CacheContext::get_with_ttl_type`: memoize a sub-cache per key — the TTL
policy is fixed by `or_insert_with` on the first call — then delegate to the
engine's get-or-compute under the composite `name::key`. -/
def CacheContext.get_with_ttl_type (ctx : CacheContext) (key : String)
    (ttl : Nat) (ttl_type : TtlType) (compute : String) (now : Nat) :
    String × CacheContext :=
  let ck := ctx.name ++ "::" ++ key
  let cache :=
    match alookup ctx.caches key with
    | some c => c
    | none => Cache.with_policy (.Ttl ttl ttl_type) ck
  let r := cache.get ck compute now
  (r.1, { ctx with caches := ainsert ctx.caches key r.2.1 })

/-- `CacheContext::get_with_ttl` defaults the kind to `Fixed`. -/
def CacheContext.get_with_ttl (ctx : CacheContext) (key : String) (ttl : Nat)
    (compute : String) (now : Nat) : String × CacheContext :=
  ctx.get_with_ttl_type key ttl .Fixed compute now

/-! ### Concrete fixtures used by witnesses -/

def wEntry : CacheEntry Nat := CacheEntry.new 7 none none 0

def wCache : Cache String Nat :=
  { storage := [("k", wEntry)], policy := .None, hits := 0, misses := 0,
    name := "w" }

def wEmptyCache : Cache String Nat := Cache.with_policy .None "w0"

def wFixedEntry : CacheEntry Nat :=
  { value := 1, created_at := 0, last_accessed := 0, access_count := 0,
    ttl := some 200, ttl_type := some .Fixed }

def wFixedCache : Cache String Nat :=
  { storage := [("K", wFixedEntry)], policy := .Ttl 200 .Fixed, hits := 0,
    misses := 0, name := "wf" }

def wSlidingEntry : CacheEntry Nat :=
  { value := 2, created_at := 0, last_accessed := 0, access_count := 0,
    ttl := some 5, ttl_type := some .Sliding }

def wSlidingCache : Cache String Nat :=
  { storage := [("s", wSlidingEntry)], policy := .Ttl 5 .Sliding, hits := 0,
    misses := 0, name := "ws" }

def wLruCache : Cache String Nat :=
  { storage := [("a", CacheEntry.new 1 none none 0),
                ("b", CacheEntry.new 2 none none 1)],
    policy := .Lru 2, hits := 0, misses := 0, name := "wl" }

def wCtx : CacheContext := { name := "ctx", caches := [] }

def wRegCache : Cache String String :=
  { storage := [("x", CacheEntry.new "v" none none 0)], policy := .None,
    hits := 0, misses := 0, name := "wr" }

def wReg : List (String × Cache String String) :=
  [(cache_key "ab" .None, wRegCache)]

def wStats : CacheStats :=
  { name := "n", hits := 1, misses := 2, entries := 3, hit_rate := 0 }

/-! ### Association-list lemmas -/

theorem alookup_ainsert_self [DecidableEq K] (s : List (K × V)) (k : K) (v : V) :
    alookup (ainsert s k v) k = some v := by
  induction s with
  | nil => simp [ainsert, alookup]
  | cons p s ih =>
    by_cases h : p.1 = k
    · simp [ainsert, alookup, h]
    · simp [ainsert, alookup, h, ih]

theorem alookup_aremove_self [DecidableEq K] (s : List (K × V)) (k : K) :
    alookup (aremove s k) k = none := by
  induction s with
  | nil => simp [aremove, alookup]
  | cons p s ih =>
    by_cases h : p.1 = k
    · simp [aremove, h, ih]
    · simp [aremove, alookup, h, ih]

theorem mem_of_alookup_eq_some [DecidableEq K] {s : List (K × V)} {k : K}
    {v : V} (h : alookup s k = some v) : (k, v) ∈ s := by
  induction s with
  | nil => simp [alookup] at h
  | cons p s ih =>
    by_cases hk : p.1 = k
    · rw [alookup, if_pos hk] at h
      obtain ⟨rfl⟩ := Option.some_inj.mp h
      exact hk ▸ List.mem_cons_self p s
    · rw [alookup, if_neg hk] at h
      exact List.mem_cons_of_mem p (ih h)

theorem mem_akeys {s : List (K × V)} {k : K} :
    k ∈ akeys s ↔ ∃ v, (k, v) ∈ s := by
  constructor
  · intro h
    rcases List.mem_map.mp h with ⟨p, hp, rfl⟩
    exact ⟨p.2, hp⟩
  · rintro ⟨v, hv⟩
    exact List.mem_map.mpr ⟨(k, v), hv, rfl⟩

theorem alookup_eq_some_of_mem [DecidableEq K] {s : List (K × V)} {k : K}
    {v : V} (hnd : (akeys s).Nodup) (hm : (k, v) ∈ s) : alookup s k = some v := by
  induction s with
  | nil => simp at hm
  | cons p s ih =>
    rw [akeys, List.map_cons, List.nodup_cons] at hnd
    rcases List.mem_cons.mp hm with h | h
    · subst h; simp [alookup]
    · have hne : p.1 ≠ k := by
        intro he
        exact hnd.1 (he ▸ mem_akeys.mpr ⟨v, h⟩)
      rw [alookup, if_neg hne]
      exact ih hnd.2 h

theorem pair_eq_of_fst_eq {s : List (K × V)} {p q : K × V}
    (hnd : (akeys s).Nodup) (hp : p ∈ s) (hq : q ∈ s) (hk : p.1 = q.1) :
    p = q := by
  induction s with
  | nil => simp at hp
  | cons r s ih =>
    rw [akeys, List.map_cons, List.nodup_cons] at hnd
    rcases List.mem_cons.mp hp with h1 | h1 <;>
      rcases List.mem_cons.mp hq with h2 | h2
    · rw [h1, h2]
    · exact absurd (h1 ▸ hk ▸ mem_akeys.mpr ⟨q.2, h2⟩) hnd.1
    · exact absurd (h2 ▸ hk.symm ▸ mem_akeys.mpr ⟨p.2, h1⟩) hnd.1
    · exact ih hnd.2 h1 h2

theorem mem_aremove_iff [DecidableEq K] {s : List (K × V)} {k : K}
    {p : K × V} : p ∈ aremove s k ↔ p ∈ s ∧ p.1 ≠ k := by
  induction s with
  | nil => simp [aremove]
  | cons q s ih =>
    by_cases h : q.1 = k
    · rw [aremove, if_pos h, ih]
      constructor
      · rintro ⟨hm, hne⟩; exact ⟨List.mem_cons_of_mem q hm, hne⟩
      · rintro ⟨hm, hne⟩
        rcases List.mem_cons.mp hm with rfl | hm
        · exact absurd h hne
        · exact ⟨hm, hne⟩
    · rw [aremove, if_neg h]
      constructor
      · intro hm
        rcases List.mem_cons.mp hm with rfl | hm
        · exact ⟨List.mem_cons_self p s, h⟩
        · exact ⟨List.mem_cons_of_mem q (ih.mp hm).1, (ih.mp hm).2⟩
      · rintro ⟨hm, hne⟩
        rcases List.mem_cons.mp hm with rfl | hm
        · exact List.mem_cons_self p _
        · exact List.mem_cons_of_mem q (ih.mpr ⟨hm, hne⟩)

theorem aremove_sublist [DecidableEq K] (s : List (K × V)) (k : K) :
    (aremove s k).Sublist s := by
  induction s with
  | nil => exact List.Sublist.refl _
  | cons p s ih =>
    by_cases h : p.1 = k
    · rw [aremove, if_pos h]
      exact List.Sublist.cons p ih
    · rw [aremove, if_neg h]
      exact List.Sublist.cons₂ p ih

theorem nodup_akeys_aremove [DecidableEq K] {s : List (K × V)} (k : K)
    (hnd : (akeys s).Nodup) : (akeys (aremove s k)).Nodup :=
  List.Nodup.sublist (List.Sublist.map Prod.fst (aremove_sublist s k)) hnd

theorem mem_akeys_aremove [DecidableEq K] {s : List (K × V)} {k k' : K}
    (hm : k' ∈ akeys s) (hne : k' ≠ k) : k' ∈ akeys (aremove s k) := by
  rcases mem_akeys.mp hm with ⟨v, hv⟩
  exact mem_akeys.mpr ⟨v, mem_aremove_iff.mpr ⟨hv, hne⟩⟩

theorem aremove_eq_of_not_mem [DecidableEq K] {s : List (K × V)} {k : K}
    (h : k ∉ akeys s) : aremove s k = s := by
  induction s with
  | nil => rfl
  | cons p s ih =>
    have hkeys : akeys (p :: s) = p.1 :: akeys s := rfl
    rw [hkeys, List.mem_cons] at h
    push_neg at h
    rw [aremove, if_neg (fun he => h.1 he.symm), ih h.2]

theorem length_aremove_of_mem [DecidableEq K] {s : List (K × V)} {k : K}
    (hnd : (akeys s).Nodup) (hk : k ∈ akeys s) :
    (aremove s k).length + 1 = s.length := by
  induction s with
  | nil => simp [akeys] at hk
  | cons p s ih =>
    have hkeys : akeys (p :: s) = p.1 :: akeys s := rfl
    rw [hkeys, List.nodup_cons] at hnd
    by_cases h : p.1 = k
    · rw [aremove, if_pos h, aremove_eq_of_not_mem (h ▸ hnd.1)]
      simp
    · have hk2 : k ∈ akeys s := by
        rw [hkeys, List.mem_cons] at hk
        rcases hk with he | he
        · exact absurd he.symm h
        · exact he
      rw [aremove, if_neg h, List.length_cons, List.length_cons, ih hnd.2 hk2]

theorem mem_foldl_aremove [DecidableEq K] (ks : List K) (s : List (K × V))
    (p : K × V) : p ∈ ks.foldl aremove s ↔ p ∈ s ∧ p.1 ∉ ks := by
  induction ks generalizing s with
  | nil => simp
  | cons k ks ih =>
    rw [List.foldl_cons, ih, mem_aremove_iff]
    constructor
    · rintro ⟨⟨hm, hne⟩, hnin⟩
      exact ⟨hm, by simp [hne, hnin]⟩
    · rintro ⟨hm, hnin⟩
      rw [List.mem_cons] at hnin
      push_neg at hnin
      exact ⟨⟨hm, hnin.1⟩, hnin.2⟩

theorem length_foldl_aremove [DecidableEq K] (ks : List K)
    (s : List (K × V)) (hnd : (akeys s).Nodup) (hks : ks.Nodup)
    (hmem : ∀ k ∈ ks, k ∈ akeys s) :
    (ks.foldl aremove s).length = s.length - ks.length := by
  induction ks generalizing s with
  | nil => simp
  | cons k ks ih =>
    rw [List.foldl_cons]
    rw [List.nodup_cons] at hks
    have hrem := length_aremove_of_mem hnd (hmem k (List.mem_cons_self k ks))
    have hmem2 : ∀ k' ∈ ks, k' ∈ akeys (aremove s k) := by
      intro k' hk'
      exact mem_akeys_aremove (hmem k' (List.mem_cons_of_mem k hk'))
        (fun he => hks.1 (he ▸ hk'))
    rw [ih (aremove s k) (nodup_akeys_aremove k hnd) hks.2 hmem2, ← hrem]
    simp [Nat.succ_sub_succ]

theorem akeys_ainsert [DecidableEq K] (s : List (K × V)) (k : K) (v : V) :
    akeys (ainsert s k v) =
      if k ∈ akeys s then akeys s else akeys s ++ [k] := by
  induction s with
  | nil => simp [ainsert, akeys]
  | cons p s ih =>
    have h1 : akeys (p :: s) = p.1 :: akeys s := rfl
    by_cases h : p.1 = k
    · have h2 : akeys ((k, v) :: s) = k :: akeys s := rfl
      rw [ainsert, if_pos h, h2, h1, if_pos (by rw [← h]; exact List.mem_cons_self _ _), h]
    · have h2 : akeys ((p : K × V) :: ainsert s k v) = p.1 :: akeys (ainsert s k v) := rfl
      rw [ainsert, if_neg h, h2, ih, h1]
      by_cases hm : k ∈ akeys s
      · rw [if_pos hm, if_pos (List.mem_cons_of_mem _ hm)]
      · rw [if_neg hm, if_neg ?_]
        · simp
        · intro hc
          rcases List.mem_cons.mp hc with he | he
          · exact h he.symm
          · exact hm he

theorem nodup_akeys_ainsert [DecidableEq K] {s : List (K × V)} (k : K) (v : V)
    (hnd : (akeys s).Nodup) : (akeys (ainsert s k v)).Nodup := by
  rw [akeys_ainsert]
  by_cases hm : k ∈ akeys s
  · rw [if_pos hm]; exact hnd
  · rw [if_neg hm]
    simp [List.nodup_append, hnd, hm]

/-! ### Eviction-order lemmas -/

theorem entryLe_trans (a b c : K × CacheEntry V) (hab : entryLe a b = true)
    (hbc : entryLe b c = true) : entryLe a c = true := by
  simp only [entryLe, decide_eq_true_eq] at *
  omega

theorem entryLe_total (a b : K × CacheEntry V) :
    (entryLe a b || entryLe b a) = true := by
  simp only [entryLe, Bool.or_eq_true, decide_eq_true_eq]
  omega

theorem pairwise_take_drop {R : α → α → Prop} {l : List α} {n : Nat}
    (h : List.Pairwise R l) {a b : α} (ha : a ∈ l.take n) (hb : b ∈ l.drop n) :
    R a b := by
  rw [← List.take_append_drop n l] at h
  exact ((List.pairwise_append.mp h).2.2) a ha b hb

/-! ### `maybe_evict` structural lemmas -/

theorem maybe_evict_fields [DecidableEq K] (c : Cache K V) (now : Nat) :
    (c.maybe_evict now).policy = c.policy ∧
    (c.maybe_evict now).hits = c.hits ∧
    (c.maybe_evict now).misses = c.misses ∧
    (c.maybe_evict now).name = c.name := by
  cases hp : c.policy <;>
    simp only [Cache.maybe_evict, Cache.evict_lru, hp] <;>
    (try split) <;> simp

theorem mem_maybe_evict_storage [DecidableEq K] {c : Cache K V} {now : Nat}
    {p : K × CacheEntry V} (h : p ∈ (c.maybe_evict now).storage) :
    p ∈ c.storage ∧ p.2.is_expired now = false := by
  have hswept : ∀ q ∈ c.storage.filter (fun q => !(q.2.is_expired now)),
      q ∈ c.storage ∧ q.2.is_expired now = false := by
    intro q hq
    have := List.mem_filter.mp hq
    exact ⟨this.1, by simpa using this.2⟩
  cases hp : c.policy <;>
    simp only [Cache.maybe_evict, Cache.evict_lru, hp] at h
  · exact hswept p h
  case Lru =>
    split at h
    · exact hswept p ((mem_foldl_aremove _ _ p).mp h).1
    · exact hswept p h
  case Ttl => exact hswept p h
  case LruTtl =>
    split at h
    · exact hswept p ((mem_foldl_aremove _ _ p).mp h).1
    · exact hswept p h

theorem nodup_akeys_filter [DecidableEq K] {s : List (K × CacheEntry V)}
    (q : K × CacheEntry V → Bool) (hnd : (akeys s).Nodup) :
    (akeys (s.filter q)).Nodup :=
  List.Nodup.sublist (List.Sublist.map Prod.fst (List.filter_sublist s)) hnd

theorem nodup_akeys_foldl_aremove [DecidableEq K] (ks : List K) :
    ∀ (s : List (K × V)), (akeys s).Nodup →
      (akeys (ks.foldl aremove s)).Nodup := by
  induction ks with
  | nil => intro s hs; exact hs
  | cons k ks ih => intro s hs; exact ih _ (nodup_akeys_aremove k hs)

theorem nodup_akeys_maybe_evict [DecidableEq K] {c : Cache K V} {now : Nat}
    (hnd : (akeys c.storage).Nodup) :
    (akeys (c.maybe_evict now).storage).Nodup := by
  have hsw : (akeys (c.storage.filter (fun q => !(q.2.is_expired now)))).Nodup :=
    nodup_akeys_filter _ hnd
  cases hp : c.policy <;>
    simp only [Cache.maybe_evict, Cache.evict_lru, hp]
  · exact hsw
  case Lru =>
    split
    · exact nodup_akeys_foldl_aremove _ _ hsw
    · exact hsw
  case Ttl => exact hsw
  case LruTtl =>
    split
    · exact nodup_akeys_foldl_aremove _ _ hsw
    · exact hsw

theorem alookup_maybe_evict_some [DecidableEq K] {c : Cache K V} {now : Nat}
    {k : K} {e : CacheEntry V} (hnd : (akeys c.storage).Nodup)
    (h : alookup (c.maybe_evict now).storage k = some e) :
    alookup c.storage k = some e ∧ e.is_expired now = false := by
  have hm := mem_maybe_evict_storage (mem_of_alookup_eq_some h)
  exact ⟨alookup_eq_some_of_mem hnd hm.1, hm.2⟩

theorem evict_excess_spec [DecidableEq K] (s : List (K × CacheEntry V))
    (cap : Nat) (hnd : (akeys s).Nodup) (hgt : cap < s.length) :
    ((((s.mergeSort entryLe).take (s.length - cap)).map Prod.fst).foldl
        aremove s).length = cap ∧
    (∀ p ∈ s,
      p.1 ∉ akeys ((((s.mergeSort entryLe).take (s.length - cap)).map
        Prod.fst).foldl aremove s) →
      ∀ q ∈ (((s.mergeSort entryLe).take (s.length - cap)).map
        Prod.fst).foldl aremove s,
        entryLe p q = true) := by
  have hperm : (s.mergeSort entryLe).Perm s := List.mergeSort_perm s entryLe
  have hlen_sorted : (s.mergeSort entryLe).length = s.length := hperm.length_eq
  have hnd_sorted : (akeys (s.mergeSort entryLe)).Nodup :=
    ((hperm.map Prod.fst).symm).nodup hnd
  have hn_le : s.length - cap ≤ (s.mergeSort entryLe).length := by omega
  have hks_len :
      (((s.mergeSort entryLe).take (s.length - cap)).map Prod.fst).length
        = s.length - cap := by
    rw [List.length_map, List.length_take]
    omega
  have hks_nodup :
      (((s.mergeSort entryLe).take (s.length - cap)).map Prod.fst).Nodup :=
    List.Nodup.sublist
      (List.Sublist.map Prod.fst (List.take_sublist _ _)) hnd_sorted
  have hks_mem : ∀ k ∈ ((s.mergeSort entryLe).take (s.length - cap)).map
      Prod.fst, k ∈ akeys s := by
    intro k hk
    rcases List.mem_map.mp hk with ⟨p, hp, rfl⟩
    have hps : p ∈ s.mergeSort entryLe :=
      List.Sublist.subset (List.take_sublist _ _) hp
    exact mem_akeys.mpr ⟨p.2, hperm.mem_iff.mp hps⟩
  have hlen := length_foldl_aremove _ s hnd hks_nodup hks_mem
  rw [hks_len] at hlen
  refine ⟨by omega, ?_⟩
  intro p hp hnotin q hq
  have hq2 := (mem_foldl_aremove _ _ q).mp hq
  have hpks : p.1 ∈ ((s.mergeSort entryLe).take (s.length - cap)).map
      Prod.fst := by
    by_contra hc
    exact hnotin (mem_akeys.mpr ⟨p.2, (mem_foldl_aremove _ _ p).mpr ⟨hp, hc⟩⟩)
  rcases List.mem_map.mp hpks with ⟨p', hp', hfst⟩
  have hp's : p' ∈ s :=
    hperm.mem_iff.mp (List.Sublist.subset (List.take_sublist _ _) hp')
  have hpp' : p = p' := pair_eq_of_fst_eq hnd hp hp's hfst.symm
  have hptake : p ∈ (s.mergeSort entryLe).take (s.length - cap) := hpp' ▸ hp'
  have hqsorted : q ∈ s.mergeSort entryLe := hperm.mem_iff.mpr hq2.1
  have hqdrop : q ∈ (s.mergeSort entryLe).drop (s.length - cap) := by
    rcases List.mem_append.mp
        (by rw [List.take_append_drop]; exact hqsorted :
          q ∈ (s.mergeSort entryLe).take (s.length - cap) ++
            (s.mergeSort entryLe).drop (s.length - cap)) with hin | hin
    · exact absurd (List.mem_map_of_mem Prod.fst hin) hq2.2
    · exact hin
  exact pairwise_take_drop
    (List.sorted_mergeSort entryLe_trans entryLe_total s) hptake hqdrop

/-- Capacity sweep of `maybe_evict` under a capacity-bearing policy: the
table settles to at most `cap` entries, to exactly `cap` when the swept
table exceeded it, and every evicted entry precedes every surviving entry
in the `(last_accessed, created_at)` eviction order. -/
theorem maybe_evict_capacity [DecidableEq K] (c : Cache K V) (now cap : Nat)
    (hcap : capacityOf c.policy = some cap)
    (hnd : (akeys c.storage).Nodup) :
    evictedSpec c.storage now cap (c.maybe_evict now) := by
  have hnd_swept :
      (akeys (c.storage.filter (fun p => !(p.2.is_expired now)))).Nodup :=
    nodup_akeys_filter _ hnd
  rw [evictedSpec]
  cases hp : c.policy <;> simp only [capacityOf, hp] at hcap
  case None => cases hcap
  case Ttl => cases hcap
  case Lru limit =>
    have hlc : limit = cap := Option.some_inj.mp hcap
    subst hlc
    simp only [Cache.maybe_evict, Cache.evict_lru, hp]
    split
    case isTrue hgt =>
      have hspec := evict_excess_spec
        (c.storage.filter (fun p => !(p.2.is_expired now))) limit hnd_swept hgt
      exact ⟨le_of_eq hspec.1, fun _ => hspec.1,
        fun q hq => ((mem_foldl_aremove _ _ q).mp hq).1, hspec.2⟩
    case isFalse hle =>
      dsimp only at hle ⊢
      refine ⟨by omega, fun hc => absurd hc hle, fun q hq => hq, ?_⟩
      intro p hps hnotin q hq
      exact absurd (mem_akeys.mpr ⟨p.2, hps⟩) hnotin
  case LruTtl limit d tt =>
    have hlc : limit = cap := Option.some_inj.mp hcap
    subst hlc
    simp only [Cache.maybe_evict, Cache.evict_lru, hp]
    split
    case isTrue hgt =>
      have hspec := evict_excess_spec
        (c.storage.filter (fun p => !(p.2.is_expired now))) limit hnd_swept hgt
      exact ⟨le_of_eq hspec.1, fun _ => hspec.1,
        fun q hq => ((mem_foldl_aremove _ _ q).mp hq).1, hspec.2⟩
    case isFalse hle =>
      dsimp only at hle ⊢
      refine ⟨by omega, fun hc => absurd hc hle, fun q hq => hq, ?_⟩
      intro p hps hnotin q hq
      exact absurd (mem_akeys.mpr ⟨p.2, hps⟩) hnotin

/-! ### Operation step lemmas -/

theorem get_if_cached_absent [DecidableEq K] {c : Cache K V} {k : K}
    {now : Nat} (hl : alookup c.storage k = none) :
    c.get_if_cached k now = (none, c, []) := by
  simp [Cache.get_if_cached, hl]

theorem get_if_cached_hit [DecidableEq K] {c : Cache K V} {k : K} {now : Nat}
    {e : CacheEntry V} (hl : alookup c.storage k = some e)
    (hexp : e.is_expired now = false) :
    c.get_if_cached k now =
      (some (e.touch now).value,
       { c with storage := ainsert c.storage k (e.touch now),
                hits := c.hits + 1 },
       [Cache.current_stats
         { c with storage := ainsert c.storage k (e.touch now),
                  hits := c.hits + 1 }]) := by
  simp [Cache.get_if_cached, hl, hexp]

theorem get_if_cached_expired [DecidableEq K] {c : Cache K V} {k : K}
    {now : Nat} {e : CacheEntry V} (hl : alookup c.storage k = some e)
    (hexp : e.is_expired now = true) :
    c.get_if_cached k now =
      (none, { c with storage := aremove c.storage k },
       [Cache.current_stats { c with storage := aremove c.storage k }]) := by
  simp [Cache.get_if_cached, hl, hexp]

theorem get_absent [DecidableEq K] {c : Cache K V} {k : K} {v : V}
    {now : Nat} (hl : alookup c.storage k = none) :
    c.get k v now = c.missPath k v now [] := by
  simp [Cache.get, hl]

theorem get_hit [DecidableEq K] {c : Cache K V} {k : K} {v : V} {now : Nat}
    {e : CacheEntry V} (hl : alookup c.storage k = some e)
    (hexp : e.is_expired now = false) :
    c.get k v now =
      ((e.touch now).value,
       { c with storage := ainsert c.storage k (e.touch now),
                hits := c.hits + 1 },
       [Cache.current_stats
         { c with storage := ainsert c.storage k (e.touch now),
                  hits := c.hits + 1 }], 0) := by
  simp [Cache.get, hl, hexp]

theorem get_expired [DecidableEq K] {c : Cache K V} {k : K} {v : V}
    {now : Nat} {e : CacheEntry V} (hl : alookup c.storage k = some e)
    (hexp : e.is_expired now = true) :
    c.get k v now =
      Cache.missPath { c with storage := aremove c.storage k } k v now
        [Cache.current_stats { c with storage := aremove c.storage k }] := by
  simp [Cache.get, hl, hexp]

/-- Everything the miss path guarantees about its output state. -/
theorem missPath_spec [DecidableEq K] (c : Cache K V) (k : K) (v : V)
    (now : Nat) (evs : List CacheStats) (hnd : (akeys c.storage).Nodup) :
    (c.missPath k v now evs).1 = v ∧
    (c.missPath k v now evs).2.2.2 = 1 ∧
    ((c.missPath k v now evs).2.1).misses = c.misses + 1 ∧
    ((c.missPath k v now evs).2.1).hits = c.hits ∧
    ((c.missPath k v now evs).2.1).policy = c.policy ∧
    (akeys ((c.missPath k v now evs).2.1).storage).Nodup ∧
    (∀ p ∈ ((c.missPath k v now evs).2.1).storage,
      p.2.is_expired now = false) ∧
    (∀ e', alookup ((c.missPath k v now evs).2.1).storage k = some e' →
      e' = CacheEntry.new v (policyTtl c.policy) (policyTtlType c.policy)
        now) := by
  have hnd2 : (akeys (ainsert c.storage k
      (CacheEntry.new v (policyTtl c.policy) (policyTtlType c.policy)
        now))).Nodup := nodup_akeys_ainsert _ _ hnd
  refine ⟨rfl, rfl, ?_, ?_, ?_, ?_, ?_, ?_⟩
  · exact (maybe_evict_fields _ _).2.2.1
  · exact (maybe_evict_fields _ _).2.1
  · exact (maybe_evict_fields _ _).1
  · exact nodup_akeys_maybe_evict hnd2
  · intro p hp
    exact (mem_maybe_evict_storage hp).2
  · intro e' he'
    have := (alookup_maybe_evict_some hnd2 he').1
    rw [alookup_ainsert_self] at this
    exact (Option.some_inj.mp this).symm

theorem missPath_events [DecidableEq K] (c : Cache K V) (k : K) (v : V)
    (now : Nat) (evs : List CacheStats) :
    (c.missPath k v now evs).2.2.1 =
      evs ++ [((c.missPath k v now evs).2.1).current_stats] := rfl

theorem get_preserves_policy [DecidableEq K] (c : Cache K V) (k : K) (v : V)
    (now : Nat) : ((c.get k v now).2.1).policy = c.policy := by
  rcases hl : alookup c.storage k with _ | e
  · rw [get_absent hl]
    exact (maybe_evict_fields _ _).1
  · by_cases hexp : e.is_expired now = true
    · rw [get_expired hl hexp]
      exact (maybe_evict_fields _ _).1
    · rw [get_hit hl (Bool.not_eq_true _ ▸ hexp)]

theorem touchSeq_fields (ts : List Nat) :
    ∀ e : CacheEntry V,
      (touchSeq e ts).created_at = e.created_at ∧
      (touchSeq e ts).ttl = e.ttl ∧
      (touchSeq e ts).ttl_type = e.ttl_type ∧
      (touchSeq e ts).value = e.value := by
  induction ts with
  | nil => intro e; exact ⟨rfl, rfl, rfl, rfl⟩
  | cons t ts ih =>
    intro e
    have hstep : touchSeq e (t :: ts) = touchSeq (e.touch t) ts := rfl
    rw [hstep]
    exact ih (e.touch t)

theorem invalidate_lookup_none [DecidableEq K] (c : Cache K V) (k : K) :
    alookup ((c.invalidate k).2.1).storage k = none := by
  rcases hl : alookup c.storage k with _ | e
  · simp [Cache.invalidate, hl]
  · simp only [Cache.invalidate, hl]
    exact alookup_aremove_self _ _

theorem isPrefixOf_append (p : List Char) :
    ∀ q r : List Char, List.isPrefixOf p q = true →
      List.isPrefixOf p (q ++ r) = true := by
  induction p with
  | nil => intro q r _; simp [List.isPrefixOf]
  | cons a as ih =>
    intro q r h
    cases q with
    | nil => simp [List.isPrefixOf] at h
    | cons b bs =>
      simp only [List.isPrefixOf, Bool.and_eq_true] at h
      simp only [List.cons_append, List.isPrefixOf, Bool.and_eq_true]
      exact ⟨h.1, ih bs r h.2⟩

theorem strStartsWith_append (ns s pre : String)
    (h : strStartsWith ns pre = true) :
    strStartsWith (ns ++ s) pre = true := by
  rw [strStartsWith] at h ⊢
  rw [String.data_append]
  exact isPrefixOf_append _ _ _ h

/-- Successive sliding-ttl reads with gaps strictly below `d` keep the entry
present, refresh `last_accessed` to each read time, and count one hit per
read. -/
theorem sliding_liveness [DecidableEq K] (d : Nat) (ts : List Nat) :
    ∀ (c : Cache K V) (k : K) (e : CacheEntry V),
      alookup c.storage k = some e → e.ttl = some d →
      e.ttl_type = some TtlType.Sliding →
      gapsLt d e.last_accessed ts = true →
      ∃ e', alookup (readSeq c k ts).storage k = some e' ∧
        e'.value = e.value ∧ e'.ttl = some d ∧
        e'.ttl_type = some TtlType.Sliding ∧
        e'.last_accessed = ts.getLastD e.last_accessed ∧
        (readSeq c k ts).hits = c.hits + ts.length := by
  induction ts with
  | nil =>
    intro c k e hl h1 h2 _
    exact ⟨e, hl, rfl, h1, h2, rfl, rfl⟩
  | cons t ts ih =>
    intro c k e hl h1 h2 hg
    rw [gapsLt] at hg
    simp only [Bool.and_eq_true, decide_eq_true_eq] at hg
    have hnotexp : e.is_expired t = false := by
      rw [CacheEntry.is_expired, h1, h2]
      simp only [decide_eq_false_iff_not]
      omega
    have hstep : readSeq c k (t :: ts) =
        readSeq ((c.get_if_cached k t).2.1) k ts := rfl
    rw [hstep, get_if_cached_hit hl hnotexp]
    have hl2 : alookup (ainsert c.storage k (e.touch t)) k =
        some (e.touch t) := alookup_ainsert_self _ _ _
    have hih := ih { c with storage := ainsert c.storage k (e.touch t), hits := c.hits + 1 } k (e.touch t) hl2 h1 h2 hg.2
    rcases hih with ⟨e', he1, he2, he3, he4, he5, he6⟩
    refine ⟨e', he1, he2, he3, he4, ?_, ?_⟩
    · rw [he5, List.getLastD_cons]
      rfl
    · rw [he6]
      simp only [List.length_cons]
      omega

/-! ### Claim theorems -/

/-- C8: `hit_rate()` on a cache whose hit counter and miss counter are both
zero returns exactly 0 — the zero-total guard is taken, so the division
branch is never evaluated. -/
theorem C8_hit_rate_zero_on_empty_counters (c : Cache K V)
    (h1 : c.hits = 0) (h2 : c.misses = 0) : c.hit_rate = 0 := by
  simp [Cache.hit_rate, h1, h2]

theorem C8_witness :
    wEmptyCache.hits = 0 ∧ wEmptyCache.misses = 0 ∧
    wEmptyCache.hit_rate = 0 :=
  ⟨rfl, rfl, C8_hit_rate_zero_on_empty_counters wEmptyCache rfl rfl⟩

/-- C7: `invalidate` on a present key removes the entry and returns true,
after which `try_get` on that key returns empty and a second `invalidate`
reports false (idempotence); on an absent key it returns false and leaves
the cache — storage and both counters — unchanged, never erroring. -/
theorem C7_invalidate_behaviour [DecidableEq K] (c : Cache K V) (k : K) :
    (∀ e : CacheEntry V, alookup c.storage k = some e →
      (c.invalidate k).1 = true ∧
      alookup ((c.invalidate k).2.1).storage k = none ∧
      (∀ now, (((c.invalidate k).2.1).get_if_cached k now).1 = none) ∧
      (((c.invalidate k).2.1).invalidate k).1 = false ∧
      ((c.invalidate k).2.1).hits = c.hits ∧
      ((c.invalidate k).2.1).misses = c.misses) ∧
    (alookup c.storage k = none →
      (c.invalidate k).1 = false ∧ (c.invalidate k).2.1 = c) := by
  constructor
  · intro e hl
    have hinv : c.invalidate k =
        (true, { c with storage := aremove c.storage k },
         [Cache.current_stats { c with storage := aremove c.storage k }]) := by
      simp [Cache.invalidate, hl]
    rw [hinv]
    refine ⟨rfl, alookup_aremove_self _ _, ?_, ?_, rfl, rfl⟩
    · intro now
      rw [get_if_cached_absent (alookup_aremove_self c.storage k)]
    · simp [Cache.invalidate, alookup_aremove_self]
  · intro hl
    simp [Cache.invalidate, hl]

theorem C7_witness :
    alookup wCache.storage "k" = some wEntry ∧
    (wCache.invalidate "k").1 = true ∧
    (((wCache.invalidate "k").2.1).get_if_cached "k" 5).1 = none ∧
    alookup wEmptyCache.storage "k" = none ∧
    (wEmptyCache.invalidate "k").1 = false :=
  ⟨rfl, ((C7_invalidate_behaviour wCache "k").1 wEntry rfl).1,
   ((C7_invalidate_behaviour wCache "k").1 wEntry rfl).2.2.1 5,
   rfl, ((C7_invalidate_behaviour wEmptyCache "k").2 rfl).1⟩

/-- C5: `try_get` (`get_if_cached`) takes no compute function — so it can
never invoke one; a live entry is returned as a hit, absence returns empty
leaving the cache untouched, expiry removes the entry and returns empty, and
in both empty cases the miss counter is unchanged; an expired entry is never
returned. -/
theorem C5_get_if_cached_behaviour [DecidableEq K] (c : Cache K V) (k : K)
    (now : Nat) :
    (alookup c.storage k = none → c.get_if_cached k now = (none, c, [])) ∧
    (∀ e : CacheEntry V, alookup c.storage k = some e →
      e.is_expired now = false →
      (c.get_if_cached k now).1 = some e.value ∧
      ((c.get_if_cached k now).2.1).hits = c.hits + 1 ∧
      ((c.get_if_cached k now).2.1).misses = c.misses) ∧
    (∀ e : CacheEntry V, alookup c.storage k = some e →
      e.is_expired now = true →
      (c.get_if_cached k now).1 = none ∧
      alookup ((c.get_if_cached k now).2.1).storage k = none ∧
      ((c.get_if_cached k now).2.1).hits = c.hits ∧
      ((c.get_if_cached k now).2.1).misses = c.misses) := by
  refine ⟨fun hl => get_if_cached_absent hl, ?_, ?_⟩
  · intro e hl hexp
    rw [get_if_cached_hit hl hexp]
    exact ⟨rfl, rfl, rfl⟩
  · intro e hl hexp
    rw [get_if_cached_expired hl hexp]
    exact ⟨rfl, alookup_aremove_self _ _, rfl, rfl⟩

theorem C5_witness :
    alookup wCache.storage "k" = some wEntry ∧
    wEntry.is_expired 5 = false ∧
    (wCache.get_if_cached "k" 5).1 = some wEntry.value ∧
    wEmptyCache.get_if_cached "k" 5 = (none, wEmptyCache, []) :=
  ⟨rfl, rfl,
   ((C5_get_if_cached_behaviour wCache "k" 5).2.1 wEntry rfl rfl).1,
   (C5_get_if_cached_behaviour wEmptyCache "k" 5).1 rfl⟩

/-- C3: with Fixed ttl metadata `(d, Fixed)` an entry is expired exactly
when `now - created_at ≥ d`; touches never change `created_at`, `ttl` or
the kind, so however many reads touched the entry in between, any read at
or after `created_at + d` finds it expired, removes it, and returns
empty. -/
theorem C3_fixed_ttl_expiry {K V : Type} [DecidableEq K] (e : CacheEntry V)
    (d : Nat) (h1 : e.ttl = some d) (h2 : e.ttl_type = some TtlType.Fixed) :
    (∀ m, e.is_expired m = decide (d ≤ m - e.created_at)) ∧
    (∀ (ts : List Nat) (m : Nat), e.created_at + d ≤ m →
      (touchSeq e ts).is_expired m = true) ∧
    (∀ (c : Cache K V) (k : K) (ts : List Nat) (m : Nat),
      alookup c.storage k = some (touchSeq e ts) → e.created_at + d ≤ m →
      (c.get_if_cached k m).1 = none ∧
      alookup ((c.get_if_cached k m).2.1).storage k = none) := by
  have hts : ∀ (ts : List Nat) (m : Nat), e.created_at + d ≤ m →
      (touchSeq e ts).is_expired m = true := by
    intro ts m hm
    obtain ⟨hc, ht, htt, _⟩ := touchSeq_fields ts e
    rw [CacheEntry.is_expired, ht, htt, h1, h2, hc]
    simp only [decide_eq_true_eq]
    omega
  refine ⟨?_, hts, ?_⟩
  · intro m
    rw [CacheEntry.is_expired, h1, h2]
  · intro c k ts m hl hm
    rw [get_if_cached_expired hl (hts ts m hm)]
    exact ⟨rfl, alookup_aremove_self _ _⟩

theorem C3_witness :
    wFixedEntry.ttl = some 200 ∧
    wFixedEntry.ttl_type = some TtlType.Fixed ∧
    wFixedEntry.created_at + 200 ≤ 250 ∧
    (touchSeq wFixedEntry [100]).is_expired 250 = true ∧
    (wFixedCache.get_if_cached "K" 250).1 = none :=
  ⟨rfl, rfl, by decide,
   (C3_fixed_ttl_expiry (K := String) wFixedEntry 200 rfl rfl).2.1 [100] 250
     (by decide),
   ((C3_fixed_ttl_expiry wFixedEntry 200 rfl rfl).2.2 wFixedCache "K" [] 250
     rfl (by decide)).1⟩

/-- C4: with Sliding ttl metadata `(d, Sliding)` an entry is expired exactly
when `now - last_accessed ≥ d`; each successful read touches (refreshes)
`last_accessed`, so a sequence of reads with inter-read gaps strictly below
`d` keeps the entry alive through all of them (each read a hit), while a
gap of at least `d` since the last access makes the next read find it
expired, remove it, and return empty. -/
theorem C4_sliding_ttl_expiry {K V : Type} [DecidableEq K] (d : Nat) :
    (∀ (e : CacheEntry V) (m : Nat), e.ttl = some d →
      e.ttl_type = some TtlType.Sliding →
      e.is_expired m = decide (d ≤ m - e.last_accessed)) ∧
    (∀ (c : Cache K V) (k : K) (e : CacheEntry V) (ts : List Nat),
      alookup c.storage k = some e → e.ttl = some d →
      e.ttl_type = some TtlType.Sliding →
      gapsLt d e.last_accessed ts = true →
      ∃ e', alookup (readSeq c k ts).storage k = some e' ∧
        e'.value = e.value ∧
        e'.last_accessed = ts.getLastD e.last_accessed ∧
        (readSeq c k ts).hits = c.hits + ts.length) ∧
    (∀ (c : Cache K V) (k : K) (e : CacheEntry V) (m : Nat),
      alookup c.storage k = some e → e.ttl = some d →
      e.ttl_type = some TtlType.Sliding → e.last_accessed + d ≤ m →
      (c.get_if_cached k m).1 = none ∧
      alookup ((c.get_if_cached k m).2.1).storage k = none) := by
  refine ⟨?_, ?_, ?_⟩
  · intro e m h1 h2
    rw [CacheEntry.is_expired, h1, h2]
  · intro c k e ts hl h1 h2 hg
    rcases sliding_liveness d ts c k e hl h1 h2 hg with
      ⟨e', he1, he2, _, _, he5, he6⟩
    exact ⟨e', he1, he2, he5, he6⟩
  · intro c k e m hl h1 h2 hm
    have hexp : e.is_expired m = true := by
      rw [CacheEntry.is_expired, h1, h2]
      simp only [decide_eq_true_eq]
      omega
    rw [get_if_cached_expired hl hexp]
    exact ⟨rfl, alookup_aremove_self _ _⟩

theorem C4_witness :
    alookup wSlidingCache.storage "s" = some wSlidingEntry ∧
    wSlidingEntry.ttl = some 5 ∧
    wSlidingEntry.ttl_type = some TtlType.Sliding ∧
    gapsLt 5 wSlidingEntry.last_accessed [3, 7, 10] = true ∧
    (∃ e', alookup (readSeq wSlidingCache "s" [3, 7, 10]).storage "s"
        = some e' ∧
      e'.value = wSlidingEntry.value ∧
      e'.last_accessed = [3, 7, 10].getLastD wSlidingEntry.last_accessed ∧
      (readSeq wSlidingCache "s" [3, 7, 10]).hits =
        wSlidingCache.hits + [3, 7, 10].length) ∧
    wSlidingEntry.last_accessed + 5 ≤ 9 ∧
    (wSlidingCache.get_if_cached "s" 9).1 = none :=
  ⟨rfl, rfl, rfl, by decide,
   (C4_sliding_ttl_expiry 5).2.1 wSlidingCache "s" wSlidingEntry [3, 7, 10]
     rfl rfl rfl (by decide),
   by decide,
   ((C4_sliding_ttl_expiry 5).2.2 wSlidingCache "s" wSlidingEntry 9 rfl rfl
     rfl (by decide)).1⟩

/-- C10: a `CacheContext` sub-cache's TTL policy is fixed by the first
`get_with_ttl_type` (or `get_with_ttl`) call for its key; every later call
for the same key reuses the memoized sub-cache, so differing duration or
kind arguments are silently ignored. -/
theorem C10_context_ttl_fixed_by_first_call (ctx : CacheContext)
    (key : String) :
    (∀ (d1 : Nat) (tt1 : TtlType) (v : String) (now : Nat),
      alookup ctx.caches key = none →
      ∃ c', alookup ((ctx.get_with_ttl_type key d1 tt1 v now).2).caches key
          = some c' ∧
        c'.policy = .Ttl d1 tt1) ∧
    (∀ c0 : Cache String String, alookup ctx.caches key = some c0 →
      (∀ (d2 : Nat) (tt2 : TtlType) (v : String) (now : Nat),
        ∃ c', alookup ((ctx.get_with_ttl_type key d2 tt2 v now).2).caches key
            = some c' ∧
          c'.policy = c0.policy) ∧
      (∀ (d2 d3 : Nat) (tt2 tt3 : TtlType) (v : String) (now : Nat),
        ctx.get_with_ttl_type key d2 tt2 v now =
          ctx.get_with_ttl_type key d3 tt3 v now)) ∧
    (∀ (d : Nat) (v : String) (now : Nat),
      ctx.get_with_ttl key d v now =
        ctx.get_with_ttl_type key d .Fixed v now) := by
  refine ⟨?_, ?_, fun d v now => rfl⟩
  · intro d1 tt1 v now hl
    simp only [CacheContext.get_with_ttl_type, hl]
    refine ⟨_, alookup_ainsert_self _ _ _, ?_⟩
    rw [get_preserves_policy]
    rfl
  · intro c0 hl
    constructor
    · intro d2 tt2 v now
      simp only [CacheContext.get_with_ttl_type, hl]
      refine ⟨_, alookup_ainsert_self _ _ _, ?_⟩
      rw [get_preserves_policy]
    · intro d2 d3 tt2 tt3 v now
      simp only [CacheContext.get_with_ttl_type, hl]

theorem C10_witness :
    alookup wCtx.caches "k" = none ∧
    (∃ c', alookup ((wCtx.get_with_ttl_type "k" 3 TtlType.Sliding "v" 0).2).caches
        "k" = some c' ∧
      c'.policy = .Ttl 3 TtlType.Sliding) :=
  ⟨rfl,
   (C10_context_ttl_fixed_by_first_call wCtx "k").1 3 TtlType.Sliding "v" 0
     rfl⟩

/-- C9: `cache_invalidate` and `cache_clear_namespace` select caches by
testing whether the composite "namespace::policy" registry key starts with
the given namespace string, so whenever one namespace is a string prefix of
another, invalidating or clearing under the shorter namespace also
invalidates or clears the entries of the longer namespace's caches. -/
theorem C9_prefix_namespace_bleed
    (caches : List (String × Cache String String))
    (ns1 ns2 key : String) (p : EvictionPolicy) (c : Cache String String)
    (hpre : strStartsWith ns2 ns1 = true)
    (hmem : (cache_key ns2 p, c) ∈ caches) :
    strStartsWith (cache_key ns2 p) ns1 = true ∧
    (cache_key ns2 p, (c.invalidate key).2.1) ∈
      (cache_invalidate caches ns1 key).2 ∧
    alookup ((c.invalidate key).2.1).storage key = none ∧
    (cache_key ns2 p, (c.clear).1) ∈ cache_clear_namespace caches ns1 ∧
    ((c.clear).1).storage = [] := by
  have hsel : strStartsWith (cache_key ns2 p) ns1 = true := by
    rw [cache_key]
    exact strStartsWith_append _ _ _ (strStartsWith_append _ _ _ hpre)
  refine ⟨hsel, ?_, invalidate_lookup_none c key, ?_, rfl⟩
  · have hmap := List.mem_map_of_mem
      (fun q : String × Cache String String =>
        if strStartsWith q.1 ns1 then (q.1, (q.2.invalidate key).2.1) else q)
      hmem
    simp only [hsel, if_true] at hmap
    exact hmap
  · have hmap := List.mem_map_of_mem
      (fun q : String × Cache String String =>
        if strStartsWith q.1 ns1 then (q.1, (q.2.clear).1) else q)
      hmem
    simp only [hsel, if_true] at hmap
    exact hmap

theorem C9_witness :
    strStartsWith "ab" "a" = true ∧
    (cache_key "ab" EvictionPolicy.None, wRegCache) ∈ wReg ∧
    (cache_key "ab" EvictionPolicy.None, (wRegCache.invalidate "x").2.1) ∈
      (cache_invalidate wReg "a" "x").2 ∧
    alookup ((wRegCache.invalidate "x").2.1).storage "x" = none :=
  ⟨by decide, List.mem_singleton.mpr rfl,
   (C9_prefix_namespace_bleed wReg "a" "ab" "x" EvictionPolicy.None wRegCache
     (by decide) (List.mem_singleton.mpr rfl)).2.1,
   (C9_prefix_namespace_bleed wReg "a" "ab" "x" EvictionPolicy.None wRegCache
     (by decide) (List.mem_singleton.mpr rfl)).2.2.1⟩

/-- C6 counterexample: a (single-threaded) `invalidate` on an absent key
publishes no snapshot at all — the claim that an invalidate call publishes
a snapshot whether or not the key was present is false on the code, which
only calls `update_cache_stats` when a removal actually happened. -/
theorem C6_counterexample : (wEmptyCache.invalidate "k").2.2 = [] := rfl

/-- C6 (amended): every hit, miss, insert and clear publishes a fresh
snapshot `{name, hits, misses, entry_count, hit_rate}` of the
post-operation state (the expired-removal miss path publishes one for the
removal and one for the miss), and `register` overwrites any prior snapshot
under the same name; `invalidate`, however, publishes a snapshot precisely
when the key was present (a removal happened) and publishes nothing on an
absent key. -/
theorem C6_stats_publication [DecidableEq K] (c : Cache K V) (k : K) (v : V)
    (now : Nat) (m : List (String × CacheStats)) (nm : String)
    (s : CacheStats) :
    (∀ e : CacheEntry V, alookup c.storage k = some e →
      e.is_expired now = false →
      (c.get_if_cached k now).2.2 =
        [((c.get_if_cached k now).2.1).current_stats] ∧
      (c.get k v now).2.2.1 = [((c.get k v now).2.1).current_stats]) ∧
    (alookup c.storage k = none →
      (c.get k v now).2.2.1 = [((c.get k v now).2.1).current_stats]) ∧
    (∀ e : CacheEntry V, alookup c.storage k = some e →
      e.is_expired now = true →
      (c.get k v now).2.2.1 =
        [Cache.current_stats { c with storage := aremove c.storage k },
         ((c.get k v now).2.1).current_stats]) ∧
    ((c.insert k v now).2 = [((c.insert k v now).1).current_stats]) ∧
    (∀ e : CacheEntry V, alookup c.storage k = some e →
      (c.invalidate k).2.2 = [((c.invalidate k).2.1).current_stats]) ∧
    (alookup c.storage k = none → (c.invalidate k).2.2 = []) ∧
    ((c.clear).2 = [((c.clear).1).current_stats]) ∧
    (c.current_stats =
      { name := c.name, hits := c.hits, misses := c.misses,
        entries := c.len, hit_rate := c.hit_rate }) ∧
    (alookup (registerStats m nm s) nm = some s) := by
  refine ⟨?_, ?_, ?_, rfl, ?_, ?_, rfl, rfl, alookup_ainsert_self _ _ _⟩
  · intro e hl hexp
    rw [get_hit hl hexp, get_if_cached_hit hl hexp]
    exact ⟨rfl, rfl⟩
  · intro hl
    rw [get_absent hl, missPath_events]
    rw [List.nil_append]
  · intro e hl hexp
    rw [get_expired hl hexp, missPath_events]
    rfl
  · intro e hl
    simp [Cache.invalidate, hl]
  · intro hl
    simp [Cache.invalidate, hl]

theorem C6_witness :
    alookup wCache.storage "k" = some wEntry ∧
    (wCache.invalidate "k").2.2 =
      [((wCache.invalidate "k").2.1).current_stats] ∧
    alookup (registerStats [] "n" wStats) "n" = some wStats :=
  ⟨rfl,
   (C6_stats_publication wCache "k" 0 5 [] "n" wStats).2.2.2.2.1 wEntry rfl,
   (C6_stats_publication wCache "k" 0 5 [] "n" wStats).2.2.2.2.2.2.2.2⟩

/-- C1: `get` (get-or-compute) on an absent or just-expired key counts one
miss, invokes the compute function exactly once, stores the computed value
stamped with the ttl metadata derived from the policy (`policyTtl` /
`policyTtlType`: TTL-bearing policies stamp duration and kind, others store
none) and fresh timestamps, runs eviction maintenance (no expired entry
survives it), and returns the new value; any later `get` of the same key
that finds the stored entry still live returns that identical value as a
hit, without invoking its compute function and without counting a miss. -/
theorem C1_get_or_compute {K V : Type} [DecidableEq K] (c : Cache K V)
    (k : K) (v : V) (now : Nat) (hnd : (akeys c.storage).Nodup)
    (habs : alookup c.storage k = none ∨
      ∃ e, alookup c.storage k = some e ∧ e.is_expired now = true) :
    (c.get k v now).1 = v ∧
    (c.get k v now).2.2.2 = 1 ∧
    ((c.get k v now).2.1).misses = c.misses + 1 ∧
    ((c.get k v now).2.1).hits = c.hits ∧
    (∀ p ∈ ((c.get k v now).2.1).storage, p.2.is_expired now = false) ∧
    (∀ e', alookup ((c.get k v now).2.1).storage k = some e' →
      e'.value = v ∧ e'.ttl = policyTtl c.policy ∧
      e'.ttl_type = policyTtlType c.policy ∧ e'.created_at = now ∧
      e'.last_accessed = now) ∧
    (∀ (now' : Nat) (w : V) (e' : CacheEntry V),
      alookup ((c.get k v now).2.1).storage k = some e' →
      e'.is_expired now' = false →
      (((c.get k v now).2.1).get k w now').1 = v ∧
      (((c.get k v now).2.1).get k w now').2.2.2 = 0 ∧
      ((((c.get k v now).2.1).get k w now').2.1).hits =
        ((c.get k v now).2.1).hits + 1 ∧
      ((((c.get k v now).2.1).get k w now').2.1).misses =
        ((c.get k v now).2.1).misses) := by
  rcases habs with hl | ⟨e, hl, hexp⟩
  · rw [get_absent hl]
    have hspec := missPath_spec c k v now [] hnd
    refine ⟨hspec.1, hspec.2.1, hspec.2.2.1, hspec.2.2.2.1,
      hspec.2.2.2.2.2.2.1, ?_, ?_⟩
    · intro e' he'
      rw [hspec.2.2.2.2.2.2.2 e' he']
      exact ⟨rfl, rfl, rfl, rfl, rfl⟩
    · intro now' w e' he' hexp'
      rw [get_hit he' hexp']
      refine ⟨?_, rfl, rfl, rfl⟩
      rw [hspec.2.2.2.2.2.2.2 e' he']
      rfl
  · rw [get_expired hl hexp]
    have hnd1 : (akeys (aremove c.storage k)).Nodup :=
      nodup_akeys_aremove k hnd
    have hspec := missPath_spec { c with storage := aremove c.storage k }
      k v now [Cache.current_stats { c with storage := aremove c.storage k }]
      hnd1
    refine ⟨hspec.1, hspec.2.1, hspec.2.2.1, hspec.2.2.2.1,
      hspec.2.2.2.2.2.2.1, ?_, ?_⟩
    · intro e' he'
      rw [hspec.2.2.2.2.2.2.2 e' he']
      exact ⟨rfl, rfl, rfl, rfl, rfl⟩
    · intro now' w e' he' hexp'
      rw [get_hit he' hexp']
      refine ⟨?_, rfl, rfl, rfl⟩
      rw [hspec.2.2.2.2.2.2.2 e' he']
      rfl

theorem C1_witness :
    (akeys wEmptyCache.storage).Nodup ∧
    alookup wEmptyCache.storage "k" = none ∧
    (wEmptyCache.get "k" 9 3).1 = 9 ∧
    (wEmptyCache.get "k" 9 3).2.2.2 = 1 ∧
    ((wEmptyCache.get "k" 9 3).2.1).misses = wEmptyCache.misses + 1 :=
  ⟨by decide, rfl,
   (C1_get_or_compute wEmptyCache "k" 9 3 (by decide) (Or.inl rfl)).1,
   (C1_get_or_compute wEmptyCache "k" 9 3 (by decide) (Or.inl rfl)).2.1,
   (C1_get_or_compute wEmptyCache "k" 9 3 (by decide) (Or.inl rfl)).2.2.1⟩

/-- C2: immediately after `insert` or the compute path of `get` under a
capacity-bearing policy (`Lru cap` / `LruTtl` with limit `cap`), the table
holds at most `cap` entries; when the expiry-swept table exceeded `cap`,
size is exactly `cap`, the survivors are unmodified swept entries, and
every evicted swept entry precedes every survivor in the `last_accessed`
ascending, `created_at` ascending eviction order (`evictedSpec`). -/
theorem C2_capacity_eviction {K V : Type} [DecidableEq K] (c : Cache K V)
    (cap : Nat) (k : K) (v : V) (now : Nat)
    (hcap : capacityOf c.policy = some cap)
    (hnd : (akeys c.storage).Nodup) :
    evictedSpec (ainsert c.storage k (CacheEntry.new v (policyTtl c.policy)
      (policyTtlType c.policy) now)) now cap ((c.insert k v now).1) ∧
    (alookup c.storage k = none →
      evictedSpec (ainsert c.storage k (CacheEntry.new v
        (policyTtl c.policy) (policyTtlType c.policy) now)) now cap
        ((c.get k v now).2.1)) ∧
    (∀ e, alookup c.storage k = some e → e.is_expired now = true →
      evictedSpec (ainsert (aremove c.storage k) k (CacheEntry.new v
        (policyTtl c.policy) (policyTtlType c.policy) now)) now cap
        ((c.get k v now).2.1)) := by
  refine ⟨?_, ?_, ?_⟩
  · exact maybe_evict_capacity
      { c with storage := ainsert c.storage k (CacheEntry.new v
          (policyTtl c.policy) (policyTtlType c.policy) now) }
      now cap hcap (nodup_akeys_ainsert _ _ hnd)
  · intro hl
    rw [get_absent hl]
    exact maybe_evict_capacity
      { c with misses := c.misses + 1,
               storage := ainsert c.storage k (CacheEntry.new v
                 (policyTtl c.policy) (policyTtlType c.policy) now) }
      now cap hcap (nodup_akeys_ainsert _ _ hnd)
  · intro e hl hexp
    rw [get_expired hl hexp]
    exact maybe_evict_capacity
      { c with misses := c.misses + 1,
               storage := ainsert (aremove c.storage k) k (CacheEntry.new v
                 (policyTtl c.policy) (policyTtlType c.policy) now) }
      now cap hcap (nodup_akeys_ainsert _ _ (nodup_akeys_aremove k hnd))

theorem C2_witness :
    capacityOf wLruCache.policy = some 2 ∧
    (akeys wLruCache.storage).Nodup ∧
    evictedSpec (ainsert wLruCache.storage "c" (CacheEntry.new 5
      (policyTtl wLruCache.policy) (policyTtlType wLruCache.policy) 2)) 2 2
      ((wLruCache.insert "c" 5 2).1) :=
  ⟨rfl, by decide,
   (C2_capacity_eviction wLruCache 2 "c" 5 2 rfl (by decide)).1⟩

end Fondue
